import Mathlib

/-!
Verification of the SCypher BIP39 seed-cipher core against its
natural-language specification.  The Rust sources `src/main.rs`,
`src/security/mod.rs` and `src/security/memory.rs` are embedded shallowly:
bytes are natural numbers below 256, byte buffers are lists, fallible
operations return `Except SCypherError`, and the collaborator modules that
are not part of the sources (the `crypto`, `bip39` and `cli` modules) are
modelled from the specification or abstracted as parameters.
-/

set_option maxRecDepth 4096

namespace SCypher

/-- Error taxonomy of the program.  Modelled from the spec: the `error`
module is not among the sources; the variants and their payloads are taken
from the spec's error taxonomy (§7) and from the uses in `src/main.rs`
(the exit-code match in `main` and the constructors in
`validate_crypto_params`). -/
inductive SCypherError where
  | InvalidSeedPhrase : SCypherError
  | InvalidWordCount : Nat → SCypherError
  | InvalidBip39Word : Nat → SCypherError
  | InvalidChecksum : SCypherError
  | InvalidPassword : SCypherError
  | PasswordMismatch : SCypherError
  | IoError : String → SCypherError
  | FileError : String → SCypherError
  | CryptoError : String → SCypherError
  | KeyDerivationFailed : SCypherError
  | InvalidIterations : String → SCypherError
  | InvalidMemoryCost : String → SCypherError
  deriving DecidableEq, Repr

/-- Embedding of `validate_crypto_params` from `src/main.rs`: iterations
are checked first (zero, then the cap of 100), then the memory cost
(minimum 8192 KB, maximum 2097152 KB); the error messages mirror the
`format!` strings of the source. -/
def validate_crypto_params (iterations memory_cost : Nat) :
    Except SCypherError Unit :=
  if iterations = 0 then
    .error (.InvalidIterations "0")
  else if iterations > 100 then
    .error (.InvalidIterations (toString iterations ++ " (maximum recommended: 100)"))
  else if memory_cost < 8192 then
    .error (.InvalidMemoryCost (toString memory_cost ++ "KB (minimum: 8192KB = 8MB)"))
  else if memory_cost > 2097152 then
    .error (.InvalidMemoryCost (toString memory_cost ++ "KB (maximum: 2097152KB = 2GB)"))
  else
    .ok ()

/-- C2 counterexample: at iterations = 0 and memory_cost = 1000 — both out
of range, and memory_cost = 1000 is the very value the claim names — the
code returns `InvalidIterations`, not `InvalidMemoryCost`, because the
iteration bounds are checked first.  This refutes the claim's clause that
a memory cost outside the accepted range yields `Err(InvalidMemoryCost)`. -/
theorem validate_crypto_params_both_invalid :
    validate_crypto_params 0 1000 =
      Except.error (SCypherError.InvalidIterations "0") ∧
    ¬ (∃ msg, validate_crypto_params 0 1000 =
        Except.error (SCypherError.InvalidMemoryCost msg)) := by
  constructor
  · rfl
  · rintro ⟨msg, h⟩
    simp [validate_crypto_params] at h

/-- C2 (amended): `validate_crypto_params iterations memory_cost` returns
`Ok(())` iff `1 ≤ iterations ≤ 100` and `8192 ≤ memory_cost ≤ 2097152`;
iterations outside that range (including 0) yield `Err(InvalidIterations)`
regardless of the memory cost, and a memory cost outside its range
(including 1000) yields `Err(InvalidMemoryCost)` whenever the iteration
count is within its range (iterations are checked first, so when both
parameters are out of range `InvalidIterations` wins). -/
theorem validate_crypto_params_spec (iterations memory_cost : Nat) :
    (validate_crypto_params iterations memory_cost = .ok () ↔
      (1 ≤ iterations ∧ iterations ≤ 100 ∧
        8192 ≤ memory_cost ∧ memory_cost ≤ 2097152)) ∧
    (iterations = 0 ∨ 100 < iterations →
      ∃ msg, validate_crypto_params iterations memory_cost =
        .error (.InvalidIterations msg)) ∧
    (1 ≤ iterations → iterations ≤ 100 →
      memory_cost < 8192 ∨ 2097152 < memory_cost →
      ∃ msg, validate_crypto_params iterations memory_cost =
        .error (.InvalidMemoryCost msg)) := by
  refine ⟨?_, ?_, ?_⟩
  · constructor
    · intro h
      by_contra hc
      simp only [validate_crypto_params] at h
      split at h
      · simp at h
      · split at h
        · simp at h
        · split at h
          · simp at h
          · split at h
            · simp at h
            · omega
    · intro ⟨h1, h2, h3, h4⟩
      simp only [validate_crypto_params]
      rw [if_neg (by omega), if_neg (by omega), if_neg (by omega),
        if_neg (by omega)]
  · intro h
    simp only [validate_crypto_params]
    rcases h with h | h
    · exact ⟨"0", by rw [if_pos h]⟩
    · refine ⟨toString iterations ++ " (maximum recommended: 100)", ?_⟩
      rw [if_neg (by omega), if_pos (by omega)]
  · intro h1 h2 h3
    simp only [validate_crypto_params]
    rcases h3 with h | h
    · refine ⟨toString memory_cost ++ "KB (minimum: 8192KB = 8MB)", ?_⟩
      rw [if_neg (by omega), if_neg (by omega), if_pos (by omega)]
    · refine ⟨toString memory_cost ++ "KB (maximum: 2097152KB = 2GB)", ?_⟩
      rw [if_neg (by omega), if_neg (by omega), if_neg (by omega),
        if_pos (by omega)]

/-- C2 witness: the amended theorem applied at concrete inputs — iteration
count 0 is rejected as `InvalidIterations`, and memory cost 1000 (with a
valid iteration count) is rejected as `InvalidMemoryCost`. -/
theorem validate_crypto_params_spec_witness :
    (∃ msg, validate_crypto_params 0 131072 =
      .error (.InvalidIterations msg)) ∧
    (∃ msg, validate_crypto_params 5 1000 =
      .error (.InvalidMemoryCost msg)) :=
  ⟨(validate_crypto_params_spec 0 131072).2.1 (Or.inl rfl),
   (validate_crypto_params_spec 5 1000).2.2 (by omega) (by omega)
     (Or.inl (by omega))⟩

/-! ## Security module (`src/security/mod.rs`, `src/security/memory.rs`)

Byte buffers are lists of naturals; an RNG is modelled as a stream of
bytes indexed by position, so that theorems quantify over every possible
random first pass. -/

/-- `Zeroize::zeroize` on a byte buffer: every byte is overwritten with 0
(the buffer keeps its length). -/
def zeroize_bytes (buffer : List Nat) : List Nat := buffer.map (fun _ => 0)

/-- `rng.fill_bytes(buffer)`: the buffer is overwritten in place with the
next bytes of the RNG stream; the length is unchanged. -/
def fill_bytes (buffer : List Nat) (rng : Nat → Nat) : List Nat :=
  (List.range buffer.length).map rng

/-- Embedding of `secure_clear` from `src/security/memory.rs`: first pass
fills the buffer with random bytes, second pass zeroizes it. -/
def secure_clear (buffer : List Nat) (rng : Nat → Nat) : List Nat :=
  zeroize_bytes (fill_bytes buffer rng)

/-- `SecureBuffer` from `src/security/memory.rs`: a byte vector wrapper. -/
structure SecureBuffer where
  data : List Nat

/-- `SecureBuffer::new(size)`: a zero-filled buffer of the given size. -/
def SecureBuffer.new (size : Nat) : SecureBuffer :=
  ⟨List.replicate size 0⟩

/-- `SecureBuffer::from_slice`. -/
def SecureBuffer.from_slice (slice : List Nat) : SecureBuffer := ⟨slice⟩

/-- What `Drop for SecureBuffer` applies to the backing data:
`secure_clear(&mut self.data)`.  Returns the final state of the backing
memory. -/
def SecureBuffer.dropScrub (b : SecureBuffer) (rng : Nat → Nat) : List Nat :=
  secure_clear b.data rng

/-- `deep_clear_vec`'s first phase (`for item in vec.iter_mut()
{ item.zeroize() }`): every element is zeroized in place. -/
def deep_clear_pass {α : Type} (zero : α → α) (l : List α) : List α :=
  l.map zero

/-- A Rust `Vec`: its visible elements plus its allocated capacity, which
`clear` keeps and `shrink_to_fit` reduces to the length. -/
structure RVec (α : Type) where
  data : List α
  cap : Nat

/-- `Vec::clear`: removes all elements, keeps the capacity. -/
def RVec.clear {α : Type} (v : RVec α) : RVec α := { v with data := [] }

/-- `Vec::shrink_to_fit`: reduces the capacity to the current length. -/
def RVec.shrink_to_fit {α : Type} (v : RVec α) : RVec α :=
  { v with cap := v.data.length }

/-- Embedding of `deep_clear_vec` from `src/security/memory.rs`: zeroize
every element, then `clear`, then `shrink_to_fit`.  The element type's
`Zeroize` implementation is the parameter `zero`. -/
def deep_clear_vec {α : Type} (zero : α → α) (v : RVec α) : RVec α :=
  RVec.shrink_to_fit (RVec.clear { v with data := deep_clear_pass zero v.data })

/-- `SecureBytes` from `src/security/mod.rs`. -/
structure SecureBytes where
  data : List Nat

/-- `SecureBytes::new`. -/
def SecureBytes.new (data : List Nat) : SecureBytes := ⟨data⟩

/-- `SecureBytes::as_slice`. -/
def SecureBytes.as_slice (s : SecureBytes) : List Nat := s.data

/-- What `Drop for SecureBytes` does to the backing buffer
(`self.data.zeroize()`): the final state of the backing memory. -/
def SecureBytes.dropScrub (s : SecureBytes) : List Nat :=
  zeroize_bytes s.data

/-- Embedding of `SecureBytes::into_vec`: `mem::replace` moves the buffer
out and `mem::forget(self)` suppresses `Drop`, so no scrub runs during the
call.  Returns the escaped vector together with the list of buffers
scrubbed during the call (empty: the Drop-based scrub is suppressed). -/
def SecureBytes.into_vec (s : SecureBytes) : List Nat × List (List Nat) :=
  let data := s.data
  (data, [])

/-- Embedding of `utils::constant_time_eq` from `src/security/mod.rs`:
false on a length mismatch, otherwise OR-accumulate the XOR of each byte
pair and compare the accumulator with zero. -/
def constant_time_eq (a b : List Nat) : Bool :=
  if a.length ≠ b.length then
    false
  else
    ((a.zip b).foldl (fun result p => result ||| (p.1 ^^^ p.2)) 0) == 0

/-- A bitwise OR of naturals vanishes iff both operands vanish. -/
theorem nat_or_eq_zero (x y : Nat) : x ||| y = 0 ↔ x = 0 ∧ y = 0 := by
  constructor
  · intro h
    have hb : ∀ i, x.testBit i = false ∧ y.testBit i = false := by
      intro i
      have hcongr := congrArg (fun n => n.testBit i) h
      simpa using hcongr
    exact ⟨Nat.eq_of_testBit_eq fun i => by simp [(hb i).1],
      Nat.eq_of_testBit_eq fun i => by simp [(hb i).2]⟩
  · rintro ⟨rfl, rfl⟩
    rfl

/-- OR-accumulating `f` over a list yields zero iff the accumulator starts
at zero and `f` vanishes on every element. -/
theorem foldl_or_eq_zero {α : Type} (f : α → Nat) (l : List α) (init : Nat) :
    (l.foldl (fun r x => r ||| f x) init = 0) ↔
      (init = 0 ∧ ∀ x ∈ l, f x = 0) := by
  induction l generalizing init with
  | nil => simp
  | cons x xs ih =>
    simp only [List.foldl_cons, ih, List.mem_cons, nat_or_eq_zero]
    constructor
    · rintro ⟨⟨h1, h2⟩, h3⟩
      exact ⟨h1, fun y hy => hy.elim (fun he => he ▸ h2) (h3 y)⟩
    · rintro ⟨h1, h2⟩
      exact ⟨⟨h1, h2 x (Or.inl rfl)⟩, fun y hy => h2 y (Or.inr hy)⟩

/-- Two lists of equal length agree on every zipped pair iff they are
equal. -/
theorem zip_pairs_eq : ∀ {a b : List Nat}, a.length = b.length →
    ((∀ p ∈ a.zip b, p.1 = p.2) ↔ a = b) := by
  intro a
  induction a with
  | nil => intro b h; cases b <;> simp_all
  | cons x xs ih =>
    intro b h
    cases b with
    | nil => simp at h
    | cons y ys =>
      simp only [List.length_cons, Nat.succ.injEq] at h
      simp only [List.zip_cons_cons, List.mem_cons, List.cons.injEq]
      constructor
      · intro hp
        refine ⟨hp (x, y) (Or.inl rfl), (ih h).mp ?_⟩
        intro p hp'
        exact hp p (Or.inr hp')
      · rintro ⟨rfl, rfl⟩
        intro p hp'
        rcases hp' with h' | h'
        · rw [h']
        · exact ((ih h).mpr rfl) p h'

/-- C7: `constant_time_eq` coincides with byte-slice equality — it returns
true iff the lengths agree and every corresponding pair of bytes is equal
(equivalently, iff the two lists are equal). -/
theorem constant_time_eq_spec (a b : List Nat) :
    (constant_time_eq a b = true ↔
      (a.length = b.length ∧ ∀ p ∈ a.zip b, p.1 = p.2)) ∧
    (constant_time_eq a b = true ↔ a = b) := by
  have key : constant_time_eq a b = true ↔
      (a.length = b.length ∧ ∀ p ∈ a.zip b, p.1 = p.2) := by
    unfold constant_time_eq
    by_cases hlen : a.length = b.length
    · rw [if_neg (by omega)]
      simp only [beq_iff_eq, foldl_or_eq_zero (fun p : Nat × Nat => p.1 ^^^ p.2)]
      constructor
      · rintro ⟨-, h⟩
        exact ⟨hlen, fun p hp => Nat.xor_eq_zero.mp (h p hp)⟩
      · rintro ⟨-, h⟩
        exact ⟨trivial, fun p hp => Nat.xor_eq_zero.mpr (h p hp)⟩
    · rw [if_pos hlen]
      exact ⟨fun hc => absurd hc (by simp), fun hc => absurd hc.1 hlen⟩
  refine ⟨key, key.trans ?_⟩
  constructor
  · rintro ⟨h1, h2⟩
    exact (zip_pairs_eq h1).mp h2
  · rintro rfl
    exact ⟨rfl, (zip_pairs_eq rfl).mpr rfl⟩

/-- C4: after `secure_clear` returns, every byte of the buffer is zero,
whatever bytes the random first pass wrote, and the buffer keeps its
length; the empty buffer is covered; and this is exactly the scrub that
`SecureBuffer`'s `Drop` implementation applies to its backing data. -/
theorem secure_clear_spec (buffer : List Nat) (rng : Nat → Nat) :
    secure_clear buffer rng = List.replicate buffer.length 0 ∧
    (∀ x ∈ secure_clear buffer rng, x = 0) ∧
    secure_clear [] rng = [] ∧
    (∀ b : SecureBuffer,
      SecureBuffer.dropScrub b rng = List.replicate b.data.length 0) := by
  have key : ∀ (l : List Nat),
      secure_clear l rng = List.replicate l.length 0 := by
    intro l
    simp only [secure_clear, zeroize_bytes, fill_bytes, List.map_map]
    rw [show ((fun (_ : Nat) => (0 : Nat)) ∘ rng) = (fun _ => (0 : Nat)) from rfl,
      List.map_const', List.length_range]
  refine ⟨key buffer, ?_, key [], fun b => key b.data⟩
  intro x hx
  rw [key buffer] at hx
  exact List.eq_of_mem_replicate hx

/-- C9: `deep_clear_vec` leaves the vector empty (`len() == 0`) with
capacity 0, its first phase zeroizes each element in place, and for byte
vector elements every byte of every element is zero after that phase. -/
theorem deep_clear_vec_spec {α : Type} (zero : α → α) (v : RVec α) :
    (deep_clear_vec zero v).data.length = 0 ∧
    (deep_clear_vec zero v).cap = 0 ∧
    deep_clear_pass zero v.data = v.data.map zero ∧
    (∀ w : RVec (List Nat),
      (deep_clear_pass zeroize_bytes w.data).all
        (fun e => e.all (fun byte => byte == 0)) = true) := by
  refine ⟨rfl, rfl, rfl, ?_⟩
  intro w
  simp [deep_clear_pass, zeroize_bytes, List.all_eq_true]

/-- C8: `SecureBytes::new(v).into_vec()` returns `v` unchanged and
performs no scrub (the Drop-based zeroization — which would have left
`v.length` zero bytes behind, as `dropScrub` shows — is suppressed by
`mem::forget`), so the secret bytes escape unzeroized. -/
theorem into_vec_spec (v : List Nat) :
    (SecureBytes.new v).into_vec.1 = v ∧
    (SecureBytes.new v).into_vec.2 = [] ∧
    SecureBytes.dropScrub (SecureBytes.new v) = List.replicate v.length 0 := by
  refine ⟨rfl, rfl, ?_⟩
  simp [SecureBytes.dropScrub, SecureBytes.new, zeroize_bytes]

/-! ## `SecureString` and UTF-8 conversion (`src/security/mod.rs`)

A Rust `&str` is modelled by its UTF-8 byte content, so a string view of
a byte buffer is the buffer itself; what distinguishes the checked
conversion (`std::str::from_utf8`) from the unchecked one
(`from_utf8_unchecked`) is that the former validates the bytes and can
fail, returning `Option`, while the latter reinterprets any bytes. -/

/-- Fuel-driven worker for `utf8Valid`; the fuel only needs to dominate
the list length, which every recursive call preserves since each step
consumes at least one byte. -/
def utf8ValidAux : Nat → List Nat → Bool
  | _, [] => true
  | 0, _ :: _ => false
  | fuel + 1, b :: rest =>
    if b < 0x80 then
      utf8ValidAux fuel rest
    else if b < 0xC2 then
      false
    else if b < 0xE0 then
      match rest with
      | c1 :: r => decide (0x80 ≤ c1 ∧ c1 < 0xC0) && utf8ValidAux fuel r
      | [] => false
    else if b < 0xF0 then
      match rest with
      | c1 :: c2 :: r =>
        decide ((if b = 0xE0 then 0xA0 else 0x80) ≤ c1 ∧
          c1 < (if b = 0xED then 0xA0 else 0xC0)) &&
        decide (0x80 ≤ c2 ∧ c2 < 0xC0) && utf8ValidAux fuel r
      | _ => false
    else if b < 0xF5 then
      match rest with
      | c1 :: c2 :: c3 :: r =>
        decide ((if b = 0xF0 then 0x90 else 0x80) ≤ c1 ∧
          c1 < (if b = 0xF4 then 0x90 else 0xC0)) &&
        decide (0x80 ≤ c2 ∧ c2 < 0xC0) && decide (0x80 ≤ c3 ∧ c3 < 0xC0) &&
        utf8ValidAux fuel r
      | _ => false
    else
      false

/-- UTF-8 validity of a byte sequence (RFC 3629): ASCII bytes stand alone;
2-, 3- and 4-byte sequences carry the right continuation bytes, with
overlong encodings, surrogates and code points above U+10FFFF excluded. -/
def utf8Valid (l : List Nat) : Bool := utf8ValidAux l.length l

/-- The checked, fallible UTF-8 conversion (`std::str::from_utf8`):
validates the bytes and fails on invalid UTF-8. -/
def from_utf8 (bytes : List Nat) : Option (List Nat) :=
  if utf8Valid bytes then some bytes else none

/-- `SecureString` from `src/security/mod.rs`: a sensitive string held as
its byte buffer. -/
structure SecureString where
  data : List Nat

/-- `SecureString::new(s: &str)`: copies the string's bytes (the argument,
being a string, is valid UTF-8 by construction). -/
def SecureString.new (s : List Nat) : SecureString := ⟨s⟩

/-- Embedding of `SecureString::as_str`: the source calls
`std::str::from_utf8_unchecked(&self.data)`, an unchecked reinterpretation
that performs no validation and cannot fail. -/
def SecureString.as_str (s : SecureString) : List Nat := s.data

/-- `SecureString::as_bytes`. -/
def SecureString.as_bytes (s : SecureString) : List Nat := s.data

/-- C6 counterexample: `as_str` does not perform a checked, fallible UTF-8
conversion — on the buffer `[0xFF]`, which the checked conversion
`from_utf8` rejects, `as_str` still yields a string view, so `as_str` does
not factor through the fallible validation. -/
theorem as_str_unchecked_counterexample :
    SecureString.as_str ⟨[255]⟩ = [255] ∧
    from_utf8 [255] = none ∧
    from_utf8 (SecureString.as_str ⟨[255]⟩) = none := by
  refine ⟨rfl, ?_, ?_⟩ <;> decide

/-- C6 (amended): `SecureString::as_str` is an unchecked reinterpretation
of the internal byte buffer — it returns the raw bytes with no UTF-8
validation for every buffer, valid or not; the UTF-8 invariant is instead
maintained by construction (`new` only accepts strings), so on every
`SecureString` built from valid UTF-8 the view agrees with the checked,
fallible conversion. -/
theorem as_str_unchecked_spec (b : List Nat) :
    SecureString.as_str ⟨b⟩ = b ∧
    (utf8Valid b = true →
      from_utf8 (SecureString.as_str (SecureString.new b)) = some b) := by
  refine ⟨rfl, fun h => ?_⟩
  simp [from_utf8, SecureString.new, SecureString.as_str, h]

/-- C6 witness: the amended theorem applied to the two-byte ASCII string
"hi". -/
theorem as_str_unchecked_spec_witness :
    SecureString.as_str ⟨[104, 105]⟩ = [104, 105] ∧
    from_utf8 (SecureString.as_str (SecureString.new [104, 105])) =
      some [104, 105] :=
  ⟨(as_str_unchecked_spec [104, 105]).1,
   (as_str_unchecked_spec [104, 105]).2 (by decide)⟩

/-! ## Bit-packing utilities for the BIP39 codec

Bits are `Bool`s; bit strings are MSB-first, the order in which BIP39
concatenates 11-bit word indices and entropy bytes. -/

/-- Little-endian bits of `n`, `w` bits wide. -/
def natToBitsLE : Nat → Nat → List Bool
  | 0, _ => []
  | w + 1, n => (n % 2 == 1) :: natToBitsLE w (n / 2)

/-- Big-endian (MSB-first) bits of `n`, `w` bits wide. -/
def natToBits (w n : Nat) : List Bool := (natToBitsLE w n).reverse

/-- Value of a little-endian bit list. -/
def bitsToNatLE : List Bool → Nat
  | [] => 0
  | b :: bs => (if b then 1 else 0) + 2 * bitsToNatLE bs

/-- Value of a big-endian bit list. -/
def bitsToNat (l : List Bool) : Nat := bitsToNatLE l.reverse

theorem natToBitsLE_length (w n : Nat) : (natToBitsLE w n).length = w := by
  induction w generalizing n with
  | zero => rfl
  | succ w ih => simp [natToBitsLE, ih]

theorem natToBits_length (w n : Nat) : (natToBits w n).length = w := by
  simp [natToBits, natToBitsLE_length]

theorem bitsToNatLE_lt (l : List Bool) : bitsToNatLE l < 2 ^ l.length := by
  induction l with
  | nil => simp [bitsToNatLE]
  | cons b bs ih =>
    simp only [bitsToNatLE, List.length_cons, pow_succ]
    cases b <;> simp <;> omega

theorem bitsToNat_lt (l : List Bool) : bitsToNat l < 2 ^ l.length := by
  simpa [bitsToNat] using bitsToNatLE_lt l.reverse

theorem bitsToNatLE_natToBitsLE (w n : Nat) (h : n < 2 ^ w) :
    bitsToNatLE (natToBitsLE w n) = n := by
  induction w generalizing n with
  | zero =>
    simp only [pow_zero, Nat.lt_one_iff] at h
    simp [natToBitsLE, bitsToNatLE, h]
  | succ w ih =>
    have hdiv : n / 2 < 2 ^ w := by
      rw [pow_succ] at h
      omega
    simp only [natToBitsLE, bitsToNatLE, ih (n / 2) hdiv]
    rcases Nat.mod_two_eq_zero_or_one n with hm | hm <;> simp [hm] <;> omega

theorem natToBitsLE_bitsToNatLE (l : List Bool) :
    natToBitsLE l.length (bitsToNatLE l) = l := by
  induction l with
  | nil => rfl
  | cons b bs ih =>
    have hmod : ((if b then 1 else 0) + 2 * bitsToNatLE bs) % 2 =
        (if b then 1 else 0) := by
      cases b <;> simp <;> omega
    have hdiv : ((if b then 1 else 0) + 2 * bitsToNatLE bs) / 2 =
        bitsToNatLE bs := by
      cases b <;> simp <;> omega
    simp only [bitsToNatLE, List.length_cons, natToBitsLE, hmod, hdiv, ih]
    cases b <;> simp

theorem bitsToNat_natToBits (w n : Nat) (h : n < 2 ^ w) :
    bitsToNat (natToBits w n) = n := by
  simp [bitsToNat, natToBits, bitsToNatLE_natToBitsLE w n h]

theorem natToBits_bitsToNat (l : List Bool) (w : Nat) (h : l.length = w) :
    natToBits w (bitsToNat l) = l := by
  subst h
  have hr : l.reverse.length = l.length := List.length_reverse l
  simp only [natToBits, bitsToNat]
  rw [← hr, natToBitsLE_bitsToNatLE l.reverse, List.reverse_reverse]

/-- Fuel-driven worker for `chunks`; fuel dominating the list length is
preserved because each step consumes at least one element. -/
def chunksAux {α : Type} : Nat → Nat → List α → List (List α)
  | _, _, [] => []
  | 0, _, l => [l]
  | fuel + 1, n, x :: xs =>
    (x :: xs.take (n - 1)) :: chunksAux fuel n (xs.drop (n - 1))

/-- Regrouping a list into chunks of `n` elements (the last chunk may be
shorter), as BIP39 regroups bit strings into bytes and 11-bit indices. -/
def chunks {α : Type} (n : Nat) (l : List α) : List (List α) :=
  chunksAux l.length n l

theorem chunksAux_flatten {α : Type} :
    ∀ (fuel n : Nat) (l : List α), l.length ≤ fuel →
      (chunksAux fuel n l).flatten = l := by
  intro fuel
  induction fuel with
  | zero =>
    intro n l h
    cases l with
    | nil => rfl
    | cons x xs => simp at h
  | succ fuel ih =>
    intro n l h
    cases l with
    | nil => rfl
    | cons x xs =>
      simp only [List.length_cons] at h
      simp only [chunksAux, List.flatten_cons]
      rw [ih n (xs.drop (n - 1)) (by simp only [List.length_drop]; omega)]
      simp [List.cons_append, List.take_append_drop]

/-- Splitting any list into chunks and flattening recovers the list. -/
theorem chunks_flatten {α : Type} (n : Nat) (l : List α) :
    (chunks n l).flatten = l :=
  chunksAux_flatten l.length n l le_rfl

theorem chunksAux_uniform_flatten {α : Type} (n : Nat) :
    ∀ (L : List (List α)) (fuel : Nat), (∀ c ∈ L, c.length = n + 1) →
      L.flatten.length ≤ fuel → chunksAux fuel (n + 1) L.flatten = L := by
  intro L
  induction L with
  | nil =>
    intro fuel hu hf
    simp only [List.flatten_nil]
    cases fuel <;> rfl
  | cons c L' ih =>
    intro fuel hu hf
    have hc : c.length = n + 1 := hu c (List.mem_cons_self c L')
    cases c with
    | nil => simp at hc
    | cons x xs =>
      have hxs : xs.length = n := by simpa using hc
      simp only [List.flatten_cons, List.cons_append] at hf ⊢
      have hfuel : ∃ f, fuel = f + 1 := by
        cases fuel with
        | zero => simp at hf
        | succ f => exact ⟨f, rfl⟩
      obtain ⟨f, rfl⟩ := hfuel
      simp only [chunksAux, Nat.add_sub_cancel]
      rw [List.take_left' hxs, List.drop_left' hxs,
        ih f (fun d hd => hu d (List.mem_cons_of_mem _ hd)) (by
          simp only [List.length_cons, List.length_append] at hf
          omega)]

/-- Splitting a concatenation of uniform `(n+1)`-sized chunks recovers
exactly those chunks. -/
theorem chunks_uniform_flatten {α : Type} (n : Nat) (L : List (List α))
    (hu : ∀ c ∈ L, c.length = n + 1) : chunks (n + 1) L.flatten = L :=
  chunksAux_uniform_flatten n L L.flatten.length hu le_rfl

theorem chunksAux_exact {α : Type} (n : Nat) :
    ∀ (k fuel : Nat) (l : List α), l.length = k * (n + 1) → l.length ≤ fuel →
      (chunksAux fuel (n + 1) l).length = k ∧
      ∀ c ∈ chunksAux fuel (n + 1) l, c.length = n + 1 := by
  intro k
  induction k with
  | zero =>
    intro fuel l hl hf
    have hnil : l = [] := List.eq_nil_of_length_eq_zero (by omega)
    subst hnil
    cases fuel <;> exact ⟨rfl, by intro c hc; simp [chunksAux] at hc⟩
  | succ k ih =>
    intro fuel l hl hf
    rw [Nat.succ_mul] at hl
    cases l with
    | nil => simp at hl; omega
    | cons x xs =>
      simp only [List.length_cons] at hl hf
      have hxs : xs.length = k * (n + 1) + n := by omega
      have hfuel : ∃ f, fuel = f + 1 := by
        cases fuel with
        | zero => omega
        | succ f => exact ⟨f, rfl⟩
      obtain ⟨f, rfl⟩ := hfuel
      simp only [chunksAux, Nat.add_sub_cancel]
      have hdrop : (xs.drop n).length = k * (n + 1) := by
        simp only [List.length_drop]; omega
      have hrest := ih f (xs.drop n) hdrop (by simp only [List.length_drop]; omega)
      refine ⟨by simp [hrest.1], ?_⟩
      intro c hc
      rcases List.mem_cons.mp hc with rfl | hc'
      · simp only [List.length_cons, List.length_take]
        omega
      · exact hrest.2 c hc'

/-- When the length is an exact multiple of the chunk size, `chunks`
produces exactly that many chunks, each of full size. -/
theorem chunks_exact {α : Type} (n k : Nat) (l : List α)
    (hl : l.length = k * (n + 1)) :
    (chunks (n + 1) l).length = k ∧
    ∀ c ∈ chunks (n + 1) l, c.length = n + 1 :=
  chunksAux_exact n k l.length l hl le_rfl

/-! ## BIP39 codec and transform engine

Modelled from the spec: the `crypto` and `bip39` modules are not among
the sources, so the codec and `transform_seed` are built from §3–§4 of
the specification.  A wordlist word is represented by its 11-bit index
(the spec's WordlistIndex is a bijection between the 2048 canonical words
and 0..2047, so the index is a faithful stand-in); the digest behind the
checksum and the Argon2id derivation are abstract function parameters —
the spec fixes only their determinism, output length and byte range. -/

/-- `Mnemonic` lengths the spec allows (§3). -/
def allowedWordCounts : List Nat := [12, 15, 18, 21, 24]

/-- ENT, the entropy bit count for a word count (§4.2: split at
total_bits × 32/33). -/
def entBits (wordCount : Nat) : Nat := wordCount * 11 * 32 / 33

/-- Regroup a bit string into bytes (8-bit chunks, MSB first). -/
def bitsToBytes (bits : List Bool) : List Nat :=
  (chunks 8 bits).map bitsToNat

/-- Concatenate the bits of a byte string (8 bits per byte, MSB first). -/
def bytesToBits (bytes : List Nat) : List Bool :=
  (bytes.map (natToBits 8)).flatten

theorem bytesToBits_length (bytes : List Nat) :
    (bytesToBits bytes).length = 8 * bytes.length := by
  induction bytes with
  | nil => rfl
  | cons b bs ih =>
    simp only [bytesToBits, List.map_cons, List.flatten_cons,
      List.length_append, natToBits_length, List.length_cons] at ih ⊢
    omega

theorem bitsToBytes_bytesToBits (bytes : List Nat)
    (h : ∀ b ∈ bytes, b < 256) : bitsToBytes (bytesToBits bytes) = bytes := by
  have huni : ∀ c ∈ bytes.map (natToBits 8), c.length = 7 + 1 := by
    intro c hc
    obtain ⟨b, _, rfl⟩ := List.mem_map.mp hc
    exact natToBits_length 8 b
  have hch : chunks 8 (bytesToBits bytes) = bytes.map (natToBits 8) := by
    simpa [bytesToBits] using chunks_uniform_flatten 7 (bytes.map (natToBits 8)) huni
  simp only [bitsToBytes, hch, List.map_map]
  calc (bytes.map (bitsToNat ∘ natToBits 8)) = bytes.map id := by
        apply List.map_congr_left
        intro b hb
        exact bitsToNat_natToBits 8 b (h b hb)
    _ = bytes := List.map_id bytes

theorem bytesToBits_bitsToBytes (bits : List Bool) (k : Nat)
    (h : bits.length = k * 8) : bytesToBits (bitsToBytes bits) = bits := by
  have hex := chunks_exact 7 k bits (by omega)
  simp only [bytesToBits, bitsToBytes, List.map_map]
  have hmap : (chunks 8 bits).map (natToBits 8 ∘ bitsToNat) =
      chunks 8 bits := by
    have : (chunks 8 bits).map (natToBits 8 ∘ bitsToNat) =
        (chunks 8 bits).map id := by
      apply List.map_congr_left
      intro c hc
      exact natToBits_bitsToNat c 8 (hex.2 c hc)
    rw [this, List.map_id]
  rw [hmap, chunks_flatten]

theorem flatten_map_natToBits_length (w : Nat) (l : List Nat) :
    ((l.map (natToBits w)).flatten).length = w * l.length := by
  induction l with
  | nil => simp
  | cons b bs ih =>
    simp only [List.map_cons, List.flatten_cons, List.length_append,
      natToBits_length, List.length_cons, ih]
    ring

/-- Modelled from the spec: `MnemonicCodec.decode` (§4.2) — reject a word
count outside {12,15,18,21,24} with `InvalidWordCount`; look every word up
in the wordlist (a word is its 11-bit index, out-of-list words fail with
`InvalidBip39Word` naming the offender); concatenate the 11-bit indices in
word order and split at ENT = total_bits × 32/33 into entropy bytes and
checksum bits. -/
def decode (words : List Nat) : Except SCypherError (List Nat × List Bool) :=
  if words.length ∈ allowedWordCounts then
    match words.find? (fun w => 2048 ≤ w) with
    | some w => .error (.InvalidBip39Word w)
    | none =>
      let bits := (words.map (natToBits 11)).flatten
      .ok (bitsToBytes (bits.take (entBits words.length)),
        bits.drop (entBits words.length))
  else
    .error (.InvalidWordCount words.length)

/-- Modelled from the spec: `ChecksumEngine.compute_checksum` (§4.3) — the
leading CS = byte_length(entropy) × 8 / 32 bits of a fixed-output
cryptographic digest of the entropy; the digest itself is the abstract
parameter `hash`. -/
def compute_checksum (hash : List Nat → List Bool) (entropy : List Nat) :
    List Bool :=
  (hash entropy).take (entropy.length * 8 / 32)

/-- Modelled from the spec: `ChecksumEngine.verify` (§4.3) — recompute and
compare bit-for-bit. -/
def verify_bits (hash : List Nat → List Bool) (entropy : List Nat)
    (claimed : List Bool) : Bool :=
  compute_checksum hash entropy == claimed

/-- Modelled from the spec: `MnemonicCodec.encode` (§4.2) — concatenate
entropy bits and checksum bits, regroup into 11-bit chunks, map each chunk
to its word. -/
def encode (entropy : List Nat) (checksum : List Bool) : List Nat :=
  (chunks 11 (bytesToBits entropy ++ checksum)).map bitsToNat

/-- Modelled from the spec: `crypto::transform_seed`
(`TransformOrchestrator.transform`, §4.6) — decode, derive a keystream of
the entropy's length (`derive` is the abstract deterministic Argon2id of
§4.4, taking password, output length, iterations, memory cost), XOR,
recompute the checksum for the new entropy, re-encode.  Checksum
verification of the input is the caller's decision (§4.6 step 2) and in
`run` happens separately before this call, so `transform_seed` itself does
not verify. -/
def transform_seed (hash : List Nat → List Bool)
    (derive : List Nat → Nat → Nat → Nat → List Nat)
    (words password : List Nat) (iterations memory_cost : Nat) :
    Except SCypherError (List Nat) :=
  match decode words with
  | .error e => .error e
  | .ok (entropy, _checksum) =>
    let keystream := derive password entropy.length iterations memory_cost
    let new_entropy := List.zipWith (fun a b => a ^^^ b) entropy keystream
    .ok (encode new_entropy (compute_checksum hash new_entropy))

/-- Modelled from the spec: `bip39::validate_seed_phrase_complete`
(`TransformOrchestrator.validate`, §4.6) — `decode` plus `verify`,
surfacing `InvalidChecksum` on a failed verification, with no key
derivation. -/
def validate_seed_phrase (hash : List Nat → List Bool) (words : List Nat) :
    Except SCypherError Unit :=
  match decode words with
  | .error e => .error e
  | .ok (entropy, checksum) =>
    if verify_bits hash entropy checksum then .ok () else
      .error .InvalidChecksum

/-- The arithmetic of the five allowed word counts: ENT is a whole number
of bytes, entropy and checksum bits fill the word grid exactly, and CS is
ENT/32. -/
theorem allowed_facts (wc : Nat) (h : wc ∈ allowedWordCounts) :
    ∃ kE cs, entBits wc = 8 * kE ∧ 8 * kE + cs = wc * 11 ∧
      kE * 8 / 32 = cs ∧ cs ≤ 256 := by
  simp only [allowedWordCounts, List.mem_cons, List.not_mem_nil, or_false] at h
  rcases h with rfl | rfl | rfl | rfl | rfl
  · exact ⟨16, 4, by decide⟩
  · exact ⟨20, 5, by decide⟩
  · exact ⟨24, 6, by decide⟩
  · exact ⟨28, 7, by decide⟩
  · exact ⟨32, 8, by decide⟩

/-- Structure of a successful `decode`: the word count is allowed, every
word is in range, the entropy is whole bytes below 256 with
8·len(entropy) = ENT, and entropy and checksum sizes fill the bit grid
with CS = len(entropy)·8/32. -/
theorem decode_props (words : List Nat) (e : List Nat) (c : List Bool)
    (h : decode words = .ok (e, c)) :
    words.length ∈ allowedWordCounts ∧
    (∀ w ∈ words, w < 2048) ∧
    8 * e.length = entBits words.length ∧
    (∀ b ∈ e, b < 256) ∧
    8 * e.length + c.length = words.length * 11 ∧
    e.length * 8 / 32 = c.length ∧
    c.length ≤ 256 := by
  by_cases hwc : words.length ∈ allowedWordCounts
  case neg => simp [decode, hwc] at h
  rcases hfind : words.find? (fun w => 2048 ≤ w) with _ | w
  case pos.some => simp [decode, hwc, hfind] at h
  have hwords : ∀ w ∈ words, w < 2048 := by
    have := List.find?_eq_none.mp hfind
    intro w hw
    have := this w hw
    simpa using this
  simp only [decode, if_pos hwc, hfind] at h
  obtain ⟨he, hc⟩ : bitsToBytes (((words.map (natToBits 11)).flatten).take
      (entBits words.length)) = e ∧
      ((words.map (natToBits 11)).flatten).drop (entBits words.length) = c := by
    constructor <;> (cases h; rfl)
  obtain ⟨kE, cs, hkE, hsum, hcs, hcsle⟩ := allowed_facts words.length hwc
  have hbitslen : ((words.map (natToBits 11)).flatten).length =
      11 * words.length := flatten_map_natToBits_length 11 words
  have htakelen : (((words.map (natToBits 11)).flatten).take
      (entBits words.length)).length = 8 * kE := by
    simp only [List.length_take, hbitslen, hkE]
    omega
  have hchunks := chunks_exact 7 kE
    (((words.map (natToBits 11)).flatten).take (entBits words.length))
    (by omega)
  have helen : e.length = kE := by
    rw [← he]
    simp only [bitsToBytes, List.length_map]
    exact hchunks.1
  have hclen : c.length = 11 * words.length - entBits words.length := by
    rw [← hc]
    simp [List.length_drop, hbitslen]
  refine ⟨hwc, hwords, by omega, ?_, by omega, by omega, by omega⟩
  intro b hb
  rw [← he] at hb
  simp only [bitsToBytes, List.mem_map] at hb
  obtain ⟨ch, hch, rfl⟩ := hb
  have := bitsToNat_lt ch
  rw [hchunks.2 ch hch] at this
  omega

/-- Re-encoding exactly what a successful `decode` produced yields the
original word sequence. -/
theorem encode_decode (words : List Nat) (e : List Nat) (c : List Bool)
    (h : decode words = .ok (e, c)) : encode e c = words := by
  by_cases hwc : words.length ∈ allowedWordCounts
  case neg => simp [decode, hwc] at h
  rcases hfind : words.find? (fun w => 2048 ≤ w) with _ | w
  case pos.some => simp [decode, hwc, hfind] at h
  have hwords : ∀ w ∈ words, w < 2048 := by
    have hnone := List.find?_eq_none.mp hfind
    intro w hw
    simpa using hnone w hw
  simp only [decode, if_pos hwc, hfind] at h
  obtain ⟨he, hc⟩ : bitsToBytes (((words.map (natToBits 11)).flatten).take
      (entBits words.length)) = e ∧
      ((words.map (natToBits 11)).flatten).drop (entBits words.length) = c := by
    constructor <;> (cases h; rfl)
  obtain ⟨kE, cs, hkE, hsum, hcs, hcsle⟩ := allowed_facts words.length hwc
  have hbitslen : ((words.map (natToBits 11)).flatten).length =
      11 * words.length := flatten_map_natToBits_length 11 words
  have htakelen : (((words.map (natToBits 11)).flatten).take
      (entBits words.length)).length = kE * 8 := by
    simp only [List.length_take, hbitslen, hkE]
    omega
  have h1 : bytesToBits e = ((words.map (natToBits 11)).flatten).take
      (entBits words.length) := by
    rw [← he]
    exact bytesToBits_bitsToBytes _ kE htakelen
  have h2 : bytesToBits e ++ c = (words.map (natToBits 11)).flatten := by
    rw [h1, ← hc]
    exact List.take_append_drop _ _
  have huni : ∀ ch ∈ words.map (natToBits 11), ch.length = 10 + 1 := by
    intro ch hch
    obtain ⟨w, _, rfl⟩ := List.mem_map.mp hch
    exact natToBits_length 11 w
  have h3 : chunks 11 ((words.map (natToBits 11)).flatten) =
      words.map (natToBits 11) :=
    chunks_uniform_flatten 10 (words.map (natToBits 11)) huni
  simp only [encode, h2, h3, List.map_map]
  calc words.map (bitsToNat ∘ natToBits 11) = words.map id := by
        apply List.map_congr_left
        intro w hw
        exact bitsToNat_natToBits 11 w (hwords w hw)
    _ = words := List.map_id words

/-- Decoding an encoded (entropy, checksum) pair of the right shape
recovers exactly that pair. -/
theorem decode_encode (wc : Nat) (e : List Nat) (c : List Bool)
    (hwc : wc ∈ allowedWordCounts)
    (hlen : 8 * e.length + c.length = wc * 11)
    (hent : entBits wc = 8 * e.length)
    (hbytes : ∀ b ∈ e, b < 256) :
    decode (encode e c) = .ok (e, c) := by
  have hblen : (bytesToBits e ++ c).length = wc * 11 := by
    simp only [List.length_append, bytesToBits_length]
    omega
  have hex := chunks_exact 10 wc (bytesToBits e ++ c) (by omega)
  have hwlen : (encode e c).length = wc := by
    simp only [encode, List.length_map]
    exact hex.1
  have hwall : ∀ w ∈ encode e c, w < 2048 := by
    intro w hw
    simp only [encode, List.mem_map] at hw
    obtain ⟨ch, hch, rfl⟩ := hw
    have := bitsToNat_lt ch
    rw [hex.2 ch hch] at this
    omega
  have hfind : (encode e c).find? (fun w => 2048 ≤ w) = none := by
    rw [List.find?_eq_none]
    intro w hw
    simpa using hwall w hw
  have h4 : (encode e c).map (natToBits 11) =
      chunks 11 (bytesToBits e ++ c) := by
    simp only [encode, List.map_map]
    calc (chunks 11 (bytesToBits e ++ c)).map (natToBits 11 ∘ bitsToNat)
        = (chunks 11 (bytesToBits e ++ c)).map id := by
          apply List.map_congr_left
          intro ch hch
          exact natToBits_bitsToNat ch 11 (hex.2 ch hch)
      _ = chunks 11 (bytesToBits e ++ c) := List.map_id _
  have h5 : ((encode e c).map (natToBits 11)).flatten = bytesToBits e ++ c := by
    rw [h4, chunks_flatten]
  have hblen8 : (bytesToBits e).length = entBits wc := by
    rw [bytesToBits_length, hent]
  simp only [decode, hwlen, if_pos hwc, hfind, h5]
  rw [List.take_left' hblen8, List.drop_left' hblen8,
    bitsToBytes_bytesToBits e hbytes]

/-- Byte-wise XOR with the same keystream twice is the identity (§4.5:
involution), provided the keystream covers the buffer. -/
theorem zipWith_xor_cancel (e k : List Nat) (h : e.length ≤ k.length) :
    List.zipWith (fun a b => a ^^^ b)
      (List.zipWith (fun a b => a ^^^ b) e k) k = e := by
  induction e generalizing k with
  | nil => simp
  | cons a e' ih =>
    cases k with
    | nil => simp at h
    | cons b k' =>
      simp only [List.zipWith_cons_cons]
      rw [Nat.xor_assoc, Nat.xor_self, Nat.xor_zero,
        ih k' (by simpa using Nat.le_of_succ_le_succ h)]

/-- XOR of two byte lists stays within byte range. -/
theorem zipWith_xor_bytes (e k : List Nat) (he : ∀ b ∈ e, b < 256)
    (hk : ∀ b ∈ k, b < 256) :
    ∀ b ∈ List.zipWith (fun a b => a ^^^ b) e k, b < 256 := by
  induction e generalizing k with
  | nil => simp
  | cons a e' ih =>
    cases k with
    | nil => simp
    | cons b k' =>
      intro x hx
      simp only [List.zipWith_cons_cons, List.mem_cons] at hx
      rcases hx with rfl | hx
      · have h1 : a < 2 ^ 8 := he a (List.mem_cons_self a e')
        have h2 : b < 2 ^ 8 := hk b (List.mem_cons_self b k')
        have := Nat.xor_lt_two_pow h1 h2
        omega
      · exact ih k' (fun y hy => he y (List.mem_cons_of_mem a hy))
          (fun y hy => hk y (List.mem_cons_of_mem b hy)) x hx

/-- Unfolding of `transform_seed` on a successfully decoded mnemonic. -/
theorem transform_seed_eq (hash : List Nat → List Bool)
    (derive : List Nat → Nat → Nat → Nat → List Nat)
    (words password : List Nat) (iterations memory_cost : Nat)
    (e : List Nat) (c : List Bool) (hdec : decode words = .ok (e, c)) :
    transform_seed hash derive words password iterations memory_cost =
      .ok (encode
        (List.zipWith (fun a b => a ^^^ b) e
          (derive password e.length iterations memory_cost))
        (compute_checksum hash
          (List.zipWith (fun a b => a ^^^ b) e
            (derive password e.length iterations memory_cost)))) := by
  simp only [transform_seed, hdec]

/-- C1: double-transform identity.  For every mnemonic that passes
validation (`decode` succeeds and the checksum verifies), every password
and fixed cost parameters, transforming twice with the same password and
parameters returns the original word sequence.  The digest `hash` is any
fixed-output hash (256 bits, as SHA-256) and `derive` any deterministic
derivation producing keystreams of the requested length in byte range, as
the spec requires of Argon2id with a fixed salt. -/
theorem transform_seed_double_identity (hash : List Nat → List Bool)
    (derive : List Nat → Nat → Nat → Nat → List Nat)
    (hhash : ∀ e, (hash e).length = 256)
    (hdlen : ∀ p n i m, (derive p n i m).length = n)
    (hdbyte : ∀ p n i m, ∀ b ∈ derive p n i m, b < 256)
    (words password : List Nat) (iterations memory_cost : Nat)
    (hvalid : validate_seed_phrase hash words = .ok ()) :
    (transform_seed hash derive words password iterations memory_cost).bind
      (fun words2 =>
        transform_seed hash derive words2 password iterations memory_cost) =
      .ok words := by
  rcases hdec : decode words with e0 | ec
  · simp [validate_seed_phrase, hdec] at hvalid
  obtain ⟨e, c⟩ := ec
  have hver : verify_bits hash e c = true := by
    by_contra hv
    simp only [validate_seed_phrase, hdec] at hvalid
    rw [if_neg hv] at hvalid
    exact absurd hvalid (by simp)
  have hcksum : compute_checksum hash e = c := by
    simpa [verify_bits] using hver
  obtain ⟨hwc, hwords, hente, hbytes, hsum, hcslen, hcsle⟩ :=
    decode_props words e c hdec
  have hklen : (derive password e.length iterations memory_cost).length =
      e.length := hdlen password e.length iterations memory_cost
  have hkbytes := hdbyte password e.length iterations memory_cost
  have hnelen : (List.zipWith (fun a b => a ^^^ b) e
      (derive password e.length iterations memory_cost)).length = e.length := by
    simp [List.length_zipWith, hklen]
  have hnebytes := zipWith_xor_bytes e
    (derive password e.length iterations memory_cost) hbytes hkbytes
  have hnclen : (compute_checksum hash (List.zipWith (fun a b => a ^^^ b) e
      (derive password e.length iterations memory_cost))).length = c.length := by
    simp only [compute_checksum, List.length_take, hhash, hnelen, hcslen]
    omega
  have ht1 := transform_seed_eq hash derive words password iterations
    memory_cost e c hdec
  have hdec2 : decode (encode
      (List.zipWith (fun a b => a ^^^ b) e
        (derive password e.length iterations memory_cost))
      (compute_checksum hash (List.zipWith (fun a b => a ^^^ b) e
        (derive password e.length iterations memory_cost)))) =
      .ok (List.zipWith (fun a b => a ^^^ b) e
        (derive password e.length iterations memory_cost),
        compute_checksum hash (List.zipWith (fun a b => a ^^^ b) e
          (derive password e.length iterations memory_cost))) := by
    apply decode_encode words.length _ _ hwc
    · rw [hnelen, hnclen]
      omega
    · rw [hnelen]
      omega
    · exact hnebytes
  have ht2 : transform_seed hash derive (encode
      (List.zipWith (fun a b => a ^^^ b) e
        (derive password e.length iterations memory_cost))
      (compute_checksum hash (List.zipWith (fun a b => a ^^^ b) e
        (derive password e.length iterations memory_cost))))
      password iterations memory_cost = .ok words := by
    rw [transform_seed_eq hash derive _ password iterations memory_cost _ _
      hdec2, hnelen,
      zipWith_xor_cancel e (derive password e.length iterations memory_cost)
        (le_of_eq hklen.symm),
      hcksum, encode_decode words e c hdec]
  rw [ht1]
  exact ht2

/-- A stand-in digest for the witness: the all-zero 256-bit hash. -/
def hashZero (entropy : List Nat) : List Bool :=
  List.replicate 256 false

/-- A stand-in derivation for the witness: the all-zero keystream of the
requested length (deterministic, as the spec requires). -/
def deriveZero (password : List Nat) (out_len iterations memory_cost : Nat) :
    List Nat :=
  List.replicate out_len 0

/-- C1 witness: the double-transform identity applied to the 12-word
all-zero mnemonic (word index 0 repeated), whose checksum under the
all-zero digest verifies, with an arbitrary password and the default cost
parameters. -/
theorem transform_seed_double_identity_witness :
    (transform_seed hashZero deriveZero (List.replicate 12 0) [7, 7] 5
        131072).bind
      (fun words2 =>
        transform_seed hashZero deriveZero words2 [7, 7] 5 131072) =
      .ok (List.replicate 12 0) :=
  transform_seed_double_identity hashZero deriveZero
    (fun e => by simp [hashZero])
    (fun p n i m => by simp [deriveZero])
    (fun p n i m b hb => by
      simp only [deriveZero] at hb
      have := List.eq_of_mem_replicate hb
      omega)
    (List.replicate 12 0) [7, 7] 5 131072 (by rfl)

/-! ## The `run` orchestration (`src/main.rs`)

The collaborator modules `run` calls (`cli`, `bip39`, `crypto`) are
abstracted as an environment recording the outcome each call would
produce in the execution under consideration.  `run` also returns the
trace of collaborator operations it invoked, in order, so that temporal
claims — key derivation never being reached — are statable. -/

/-- Collaborator operations `run` can invoke, in the order of
`src/main.rs` lines 137–169. -/
inductive RunEvent where
  | readSeed
  | validateSeed
  | readPassword
  | transformSeed
  | verifyChecksum
  | outputResult
  deriving DecidableEq, Repr

/-- Outcomes of the collaborator calls for one execution of `run`. -/
structure RunEnv where
  read_seed_from_file : String → Except SCypherError String
  read_seed_interactive : Bool → Except SCypherError String
  validate_seed_phrase_complete : String → Except SCypherError Unit
  read_password_secure : Except SCypherError String
  transform_seed : String → String → Nat → Nat → Except SCypherError String
  verify_checksum : String → Except SCypherError Bool
  output_result : String → Option String → Except SCypherError Unit

/-- The argument values `run` extracts from the parsed command line. -/
structure RunArgs where
  is_decrypt : Bool
  output_file : Option String
  input_file : Option String
  skip_checksum : Bool
  iterations : Nat
  memory : Nat

/-- Step 1 of `run`: the seed phrase comes from the input file when one
was given, otherwise from the interactive prompt. -/
def readSeedStep (env : RunEnv) (a : RunArgs) : Except SCypherError String :=
  match a.input_file with
  | some f => env.read_seed_from_file f
  | none => env.read_seed_interactive a.is_decrypt

/-- Steps 3–6 of `run` (password, transform, advisory decrypt-mode
checksum report, output), shared by the two validation branches.  The
advisory check at lines 160–166 pattern-matches `verify_checksum`'s
result only to choose a message to print, so the invocation is recorded
but its outcome does not influence the result. -/
def runFromSeed (env : RunEnv) (a : RunArgs) (seed : String)
    (tr : List RunEvent) : Except SCypherError Unit × List RunEvent :=
  match env.read_password_secure with
  | .error e => (.error e, tr ++ [.readPassword])
  | .ok password =>
    match env.transform_seed seed password a.iterations a.memory with
    | .error e => (.error e, tr ++ [.readPassword, .transformSeed])
    | .ok result =>
      let tr2 := if a.is_decrypt && !a.skip_checksum then
          tr ++ [.readPassword, .transformSeed, .verifyChecksum]
        else
          tr ++ [.readPassword, .transformSeed]
      match env.output_result result a.output_file with
      | .error e => (.error e, tr2 ++ [.outputResult])
      | .ok _ => (.ok (), tr2 ++ [.outputResult])

/-- Embedding of `run` from `src/main.rs`: validate cost parameters,
acquire the seed phrase, validate BIP39 format unless skipped, read the
password, transform, optionally report the result checksum, output. -/
def run (env : RunEnv) (a : RunArgs) :
    Except SCypherError Unit × List RunEvent :=
  match validate_crypto_params a.iterations a.memory with
  | .error e => (.error e, [])
  | .ok _ =>
    match readSeedStep env a with
    | .error e => (.error e, [.readSeed])
    | .ok seed =>
      if a.skip_checksum then
        runFromSeed env a seed [.readSeed]
      else
        match env.validate_seed_phrase_complete seed with
        | .error e => (.error e, [.readSeed, .validateSeed])
        | .ok _ => runFromSeed env a seed [.readSeed, .validateSeed]

/-- C3: key derivation is never reached on invalid input — if cost
validation fails, or (with checksum verification not skipped) BIP39
validation of the acquired seed phrase fails with any error, `run`
returns that very error and `transform_seed` (the only caller of the key
derivation) is never invoked. -/
theorem run_no_derivation_on_invalid_input (env : RunEnv) (a : RunArgs) :
    (∀ e, validate_crypto_params a.iterations a.memory = .error e →
      (run env a).1 = .error e ∧
      RunEvent.transformSeed ∉ (run env a).2) ∧
    (∀ s e, validate_crypto_params a.iterations a.memory = .ok () →
      a.skip_checksum = false →
      readSeedStep env a = .ok s →
      env.validate_seed_phrase_complete s = .error e →
      (run env a).1 = .error e ∧
      RunEvent.transformSeed ∉ (run env a).2) := by
  constructor
  · intro e hval
    simp [run, hval]
  · intro s e hval hskip hseed hbip
    simp [run, hval, hskip, hseed, hbip]

/-- Environment for the C3 witness: the seed phrase is acquired but its
BIP39 validation fails with `InvalidChecksum`; everything else would
succeed. -/
def runEnvBadPhrase : RunEnv where
  read_seed_from_file := fun _ => .ok "seed phrase"
  read_seed_interactive := fun _ => .ok "seed phrase"
  validate_seed_phrase_complete := fun _ => .error .InvalidChecksum
  read_password_secure := .ok "password"
  transform_seed := fun _ _ _ _ => .ok "result"
  verify_checksum := fun _ => .ok true
  output_result := fun _ _ => .ok ()

/-- Arguments for the C3 witness: interactive encrypt mode, default cost
parameters, checksum verification not skipped. -/
def runArgsStrict : RunArgs where
  is_decrypt := false
  output_file := none
  input_file := none
  skip_checksum := false
  iterations := 5
  memory := 131072

/-- C3 witness: with valid cost parameters and a seed phrase failing
BIP39 validation, `run` returns `InvalidChecksum` and never invokes the
transform. -/
theorem run_no_derivation_on_invalid_input_witness :
    (run runEnvBadPhrase runArgsStrict).1 =
      .error SCypherError.InvalidChecksum ∧
    RunEvent.transformSeed ∉ (run runEnvBadPhrase runArgsStrict).2 :=
  (run_no_derivation_on_invalid_input runEnvBadPhrase runArgsStrict).2
    "seed phrase" SCypherError.InvalidChecksum rfl rfl rfl rfl

/-- Environment for the C5 counterexample: every step succeeds except the
advisory post-transform checksum verification, which fails with an
error. -/
def runEnvVerifyErr : RunEnv where
  read_seed_from_file := fun _ => .ok "seed phrase"
  read_seed_interactive := fun _ => .ok "seed phrase"
  validate_seed_phrase_complete := fun _ => .ok ()
  read_password_secure := .ok "password"
  transform_seed := fun _ _ _ _ => .ok "result"
  verify_checksum := fun _ => .error (.CryptoError "digest failure")
  output_result := fun _ _ => .ok ()

/-- Arguments for the C5 counterexample: interactive decrypt mode with
checksum verification enabled, so lines 160–166 of `src/main.rs` invoke
`verify_checksum` on the transform result. -/
def runArgsDecrypt : RunArgs where
  is_decrypt := true
  output_file := none
  input_file := none
  skip_checksum := false
  iterations := 5
  memory := 131072

/-- C5 counterexample: in decrypt mode the advisory result-checksum
verification is invoked (it appears in the trace), its result is an
`Err`, and `run` still returns `Ok(())` — the error is discarded with a
printed warning, refuting the claim that no execution path discards an
`Err` of an invoked operation and still returns `Ok(())`. -/
theorem run_swallows_verify_checksum_error :
    runEnvVerifyErr.verify_checksum "result" =
      .error (.CryptoError "digest failure") ∧
    run runEnvVerifyErr runArgsDecrypt =
      (.ok (), [.readSeed, .validateSeed, .readPassword, .transformSeed,
        .verifyChecksum, .outputResult]) := by
  exact ⟨rfl, rfl⟩

/-- C5 (amended): every error of a non-advisory operation invoked during
`run` is propagated — `run` returns `Ok(())` iff cost validation, seed
acquisition, BIP39 validation (unless skipped), password reading, the
transform and the output step all succeed, and whichever of these fails
first has its error returned verbatim.  The one exception, forced by the
counterexample, is the advisory decrypt-mode verification of the result
checksum, whose `Err` is reported as a warning and discarded. -/
theorem run_error_propagation (env : RunEnv) (a : RunArgs) :
    ((run env a).1 = .ok () ↔
      (validate_crypto_params a.iterations a.memory = .ok () ∧
        ∃ s, readSeedStep env a = .ok s ∧
          (a.skip_checksum = true ∨
            env.validate_seed_phrase_complete s = .ok ()) ∧
          ∃ p, env.read_password_secure = .ok p ∧
            ∃ r, env.transform_seed s p a.iterations a.memory = .ok r ∧
              env.output_result r a.output_file = .ok ())) ∧
    (∀ e, validate_crypto_params a.iterations a.memory = .error e →
      (run env a).1 = .error e) ∧
    (∀ e, validate_crypto_params a.iterations a.memory = .ok () →
      readSeedStep env a = .error e → (run env a).1 = .error e) ∧
    (∀ s e, validate_crypto_params a.iterations a.memory = .ok () →
      readSeedStep env a = .ok s → a.skip_checksum = false →
      env.validate_seed_phrase_complete s = .error e →
      (run env a).1 = .error e) ∧
    (∀ s e, validate_crypto_params a.iterations a.memory = .ok () →
      readSeedStep env a = .ok s →
      (a.skip_checksum = true ∨
        env.validate_seed_phrase_complete s = .ok ()) →
      env.read_password_secure = .error e → (run env a).1 = .error e) ∧
    (∀ s p e, validate_crypto_params a.iterations a.memory = .ok () →
      readSeedStep env a = .ok s →
      (a.skip_checksum = true ∨
        env.validate_seed_phrase_complete s = .ok ()) →
      env.read_password_secure = .ok p →
      env.transform_seed s p a.iterations a.memory = .error e →
      (run env a).1 = .error e) ∧
    (∀ s p r e, validate_crypto_params a.iterations a.memory = .ok () →
      readSeedStep env a = .ok s →
      (a.skip_checksum = true ∨
        env.validate_seed_phrase_complete s = .ok ()) →
      env.read_password_secure = .ok p →
      env.transform_seed s p a.iterations a.memory = .ok r →
      env.output_result r a.output_file = .error e →
      (run env a).1 = .error e) := by
  have hbranch : ∀ (s : String),
      validate_crypto_params a.iterations a.memory = .ok () →
      readSeedStep env a = .ok s →
      (a.skip_checksum = true ∨
        env.validate_seed_phrase_complete s = .ok ()) →
      ∃ tr, run env a = runFromSeed env a s tr := by
    intro s hval hseed hv
    rcases hsk : a.skip_checksum with _ | _
    · rcases hv with hv | hv
      · simp [hsk] at hv
      · exact ⟨[.readSeed, .validateSeed], by simp [run, hval, hseed, hsk, hv]⟩
    · exact ⟨[.readSeed], by simp [run, hval, hseed, hsk]⟩
  refine ⟨?_, ?_, ?_, ?_, ?_, ?_, ?_⟩
  · rcases hval : validate_crypto_params a.iterations a.memory with e | u
    · simp [run, hval]
    · cases u
      rcases hseed : readSeedStep env a with e | s
      · simp [run, hval, hseed]
      · rcases hsk : a.skip_checksum with _ | _
        · rcases hbip : env.validate_seed_phrase_complete s with e | u
          · simp [run, runFromSeed, hval, hseed, hsk, hbip]
          · cases u
            obtain ⟨tr, htr⟩ := hbranch s hval hseed (Or.inr hbip)
            rw [htr]
            rcases hp : env.read_password_secure with e | p
            · simp [runFromSeed, hp, hbip]
            · rcases ht : env.transform_seed s p a.iterations a.memory
                with e | r
              · simp [runFromSeed, hp, ht, hbip]
              · rcases ho : env.output_result r a.output_file with e | u
                · simp [runFromSeed, hp, ht, ho, hbip]
                · cases u
                  simp [runFromSeed, hp, ht, ho, hbip]
        · obtain ⟨tr, htr⟩ := hbranch s hval hseed (Or.inl hsk)
          rw [htr]
          rcases hp : env.read_password_secure with e | p
          · simp [runFromSeed, hp, hsk]
          · rcases ht : env.transform_seed s p a.iterations a.memory
              with e | r
            · simp [runFromSeed, hp, ht, hsk]
            · rcases ho : env.output_result r a.output_file with e | u
              · simp [runFromSeed, hp, ht, ho, hsk]
              · cases u
                simp [runFromSeed, hp, ht, ho, hsk]
  · intro e hval
    simp [run, hval]
  · intro e hval hseed
    simp [run, hval, hseed]
  · intro s e hval hseed hsk hbip
    simp [run, hval, hseed, hsk, hbip]
  · intro s e hval hseed hv hp
    obtain ⟨tr, htr⟩ := hbranch s hval hseed hv
    rw [htr]
    simp [runFromSeed, hp]
  · intro s p e hval hseed hv hp ht
    obtain ⟨tr, htr⟩ := hbranch s hval hseed hv
    rw [htr]
    simp [runFromSeed, hp, ht]
  · intro s p r e hval hseed hv hp ht ho
    obtain ⟨tr, htr⟩ := hbranch s hval hseed hv
    rw [htr]
    simp [runFromSeed, hp, ht, ho]

/-- Environment for the C5 witness: everything succeeds except the output
step, which fails with a file error. -/
def runEnvOutputErr : RunEnv where
  read_seed_from_file := fun _ => .ok "seed phrase"
  read_seed_interactive := fun _ => .ok "seed phrase"
  validate_seed_phrase_complete := fun _ => .ok ()
  read_password_secure := .ok "password"
  transform_seed := fun _ _ _ _ => .ok "result"
  verify_checksum := fun _ => .ok true
  output_result := fun _ _ => .error (.FileError "disk full")

/-- C5 witness: the amended propagation theorem applied at concrete
inputs — a zero iteration count propagates `InvalidIterations`, and a
failing output step propagates `FileError`. -/
theorem run_error_propagation_witness :
    (run runEnvOutputErr { runArgsStrict with iterations := 0 }).1 =
      .error (.InvalidIterations "0") ∧
    (run runEnvOutputErr runArgsStrict).1 =
      .error (.FileError "disk full") :=
  ⟨(run_error_propagation runEnvOutputErr
      { runArgsStrict with iterations := 0 }).2.1
      (.InvalidIterations "0") rfl,
   (run_error_propagation runEnvOutputErr runArgsStrict).2.2.2.2.2.2
      "seed phrase" "password" "result" (.FileError "disk full")
      rfl rfl (Or.inr rfl) rfl rfl rfl⟩

end SCypher
